import Mathlib

/-!
Verification of the directory-walking engine of `async-walkdir` (`src/lib.rs`).

The Rust crate produces a pull-based depth-first stream of directory entries.
We embed its engine shallowly:

* the filesystem reachable from a directory listing is a finite tree
  (`FsTree`); each node carries the result of `DirEntry::file_type()`
  (`Except Nat Bool`, the `Bool` being `is_dir`) and the result of
  `read_dir(path)` (`Listing`, either an I/O error code or the raw items,
  where each raw item is either a `ReadDir::next` error or a child tree);
* machine errors (`std::io::Error`) are abstracted to `Nat` codes;
* the asynchronous filter callback is embedded as a pure function
  `Entry → Filtering` (the code's `FnMut` is only ever consulted for its
  verdict on the entry passed to it); the number and order of its
  invocations is tracked explicitly in a `calls` log, and the filesystem
  operations performed (`read_dir`, `file_type`) in an `ops` log.
-/

namespace AsyncWalkdir

/-- Filtering verdict, from `enum Filtering` in the source. -/
inductive Filtering where
  | Ignore
  | IgnoreDir
  | Continue
deriving DecidableEq, Repr

mutual
/-- One filesystem object: its name, the result of `file_type()`
(`.ok true` = directory, `.ok false` = non-directory, `.error e` =
classification fails with error `e`), and the result of `read_dir` on its
path (only ever consulted when `file_type` said directory). -/
inductive FsTree where
  | mk (name : String) (ftype : Except Nat Bool) (listing : Listing)

/-- Result of `read_dir(path)`: failure to open, or the raw item sequence. -/
inductive Listing where
  | fail (e : Nat)
  | ok (items : Items)

/-- The raw items a `ReadDir` handle produces, in order: each `next()` call
either errors or yields a child. -/
inductive Items where
  | nil
  | errItem (e : Nat) (rest : Items)
  | okItem (t : FsTree) (rest : Items)
end

deriving instance DecidableEq for Except

mutual
def FsTree.decEq : (a b : FsTree) → Decidable (a = b)
  | .mk n1 f1 l1, .mk n2 f2 l2 =>
    if h1 : n1 = n2 then
      if h2 : f1 = f2 then
        match Listing.decEq l1 l2 with
        | isTrue h3 => isTrue (by rw [h1, h2, h3])
        | isFalse h3 => isFalse (by intro h; injection h; contradiction)
      else isFalse (by intro h; injection h; contradiction)
    else isFalse (by intro h; injection h; contradiction)

def Listing.decEq : (a b : Listing) → Decidable (a = b)
  | .fail e1, .fail e2 =>
    if h : e1 = e2 then isTrue (by rw [h]) else isFalse (by intro hh; injection hh; contradiction)
  | .fail _, .ok _ => isFalse (by intro h; exact Listing.noConfusion h)
  | .ok _, .fail _ => isFalse (by intro h; exact Listing.noConfusion h)
  | .ok i1, .ok i2 =>
    match Items.decEq i1 i2 with
    | isTrue h => isTrue (by rw [h])
    | isFalse h => isFalse (by intro hh; injection hh; contradiction)

def Items.decEq : (a b : Items) → Decidable (a = b)
  | .nil, .nil => isTrue rfl
  | .nil, .errItem _ _ => isFalse (by intro h; exact Items.noConfusion h)
  | .nil, .okItem _ _ => isFalse (by intro h; exact Items.noConfusion h)
  | .errItem _ _, .nil => isFalse (by intro h; exact Items.noConfusion h)
  | .errItem _ _, .okItem _ _ => isFalse (by intro h; exact Items.noConfusion h)
  | .okItem _ _, .nil => isFalse (by intro h; exact Items.noConfusion h)
  | .okItem _ _, .errItem _ _ => isFalse (by intro h; exact Items.noConfusion h)
  | .errItem e1 r1, .errItem e2 r2 =>
    if h : e1 = e2 then
      match Items.decEq r1 r2 with
      | isTrue h2 => isTrue (by rw [h, h2])
      | isFalse h2 => isFalse (by intro hh; injection hh; contradiction)
    else isFalse (by intro hh; injection hh; contradiction)
  | .okItem t1 r1, .okItem t2 r2 =>
    match FsTree.decEq t1 t2, Items.decEq r1 r2 with
    | isTrue h1, isTrue h2 => isTrue (by rw [h1, h2])
    | isFalse h1, _ => isFalse (by intro hh; injection hh; contradiction)
    | _, isFalse h2 => isFalse (by intro hh; injection hh; contradiction)
end

instance : DecidableEq FsTree := FsTree.decEq
instance : DecidableEq Listing := Listing.decEq
instance : DecidableEq Items := Items.decEq

def FsTree.name : FsTree → String
  | .mk n _ _ => n

def FsTree.ftype : FsTree → Except Nat Bool
  | .mk _ ft _ => ft

def FsTree.listing : FsTree → Listing
  | .mk _ _ l => l

mutual
/-- Number of raw items in a tree (each raw item, error items included,
counts one; a node counts itself plus its listing). -/
def FsTree.size : FsTree → Nat
  | .mk _ _ l => 1 + Listing.size l

def Listing.size : Listing → Nat
  | .fail _ => 0
  | .ok items => Items.size items

def Items.size : Items → Nat
  | .nil => 0
  | .errItem _ rest => 1 + Items.size rest
  | .okItem t rest => FsTree.size t + Items.size rest
end

theorem FsTree.size_pos (t : FsTree) : 0 < t.size := by
  cases t with
  | mk n ft l => simp [FsTree.size]

/-- One discovered filesystem member: its full path (root path followed by
the component names down to it) plus the `FsTree` describing what the
filesystem holds there.  Models the shared `Arc<DirEntry>` handle. -/
structure Entry where
  path : List String
  tree : FsTree
deriving DecidableEq

/-- A filesystem operation performed by the engine. -/
inductive FsOp where
  | readDir (p : List String)
  | fileType (p : List String)
deriving DecidableEq

/-- The caller-supplied asynchronous filter, embedded as a pure function of
the entry it is handed. -/
def Filter : Type := Entry → Filtering

/-- An open `ReadDir` handle: the directory's path and the raw items it has
not yet produced. -/
structure Handle where
  parent : List String
  items : Items
deriving DecidableEq

/-- Total raw items remaining on a stack of open handles. -/
def stackSize : List Handle → Nat
  | [] => 0
  | h :: rest => h.items.size + stackSize rest

/-- Result of `walk_entry`: either yield one stream item and continue from
the given stack, or keep walking the given stack without yielding
(the entry was discarded by the filter). -/
inductive StepOut where
  | yield (r : Except Nat Entry) (dirs : List Handle)
  | keepWalking (dirs : List Handle)
deriving DecidableEq

/-- The stack a `StepOut` continues from. -/
def StepOut.stack : StepOut → List Handle
  | .yield _ d => d
  | .keepWalking d => d

/-- A computation of the engine together with the filter invocations and
filesystem operations it performed, in order. -/
structure EngineRes (α : Type) where
  calls : List Entry
  ops : List FsOp
  out : α
deriving DecidableEq

/-- The verdict computed at src/lib.rs lines 221-224: invoke the filter when
present, otherwise treat the entry as `Continue`. -/
def fVerdict (filter : Option Filter) (e : Entry) : Filtering :=
  match filter with
  | some f => f e
  | none => Filtering.Continue

/-- The filter invocations performed at src/lib.rs lines 221-224: exactly one
when a filter is present, none otherwise. -/
def fCalls (filter : Option Filter) (e : Entry) : List Entry :=
  match filter with
  | some _ => [e]
  | none => []

/-- Shallow embedding of `walk_entry` (src/lib.rs, lines 207-242), minus its
tail call into `walk`, which is represented by the `keepWalking` result and
performed by `walk` itself.  Faithful points: `file_type()` is resolved
first (failure yields the error with the stack unchanged and the filter
never invoked); then the filter is invoked (or `Continue` assumed when
absent); then, when the classification said directory, `read_dir` is called
on the entry's path regardless of the verdict, its failure is yielded with
the stack unchanged, and on success the new handle is pushed exactly when
the verdict is not `IgnoreDir`; finally `Continue` yields the entry and any
other verdict discards it and keeps walking. -/
def walk_entry (filter : Option Filter) (e : Entry) (dirs : List Handle) :
    EngineRes StepOut :=
  match e.tree.ftype with
  | .error err => ⟨[], [.fileType e.path], .yield (.error err) dirs⟩
  | .ok isDir =>
    let filtering : Filtering := fVerdict filter e
    let calls : List Entry := fCalls filter e
    if isDir then
      match e.tree.listing with
      | .fail err => ⟨calls, [.fileType e.path, .readDir e.path], .yield (.error err) dirs⟩
      | .ok items =>
        let dirs' := if filtering ≠ Filtering.IgnoreDir then ⟨e.path, items⟩ :: dirs else dirs
        match filtering with
        | .Continue => ⟨calls, [.fileType e.path, .readDir e.path], .yield (.ok e) dirs'⟩
        | _ => ⟨calls, [.fileType e.path, .readDir e.path], .keepWalking dirs'⟩
    else
      match filtering with
      | .Continue => ⟨calls, [.fileType e.path], .yield (.ok e) dirs⟩
      | _ => ⟨calls, [.fileType e.path], .keepWalking dirs⟩

theorem walk_entry_stack_bound (filter : Option Filter) (e : Entry) (dirs : List Handle) :
    stackSize ((walk_entry filter e dirs).out.stack) < e.tree.size + stackSize dirs ∧
    ((walk_entry filter e dirs).out.stack).length ≤ dirs.length + 1 := by
  obtain ⟨p, t⟩ := e
  obtain ⟨n, ft, l⟩ := t
  cases ft with
  | error err =>
    simp [walk_entry, FsTree.ftype, StepOut.stack, FsTree.size]
  | ok isDir =>
    cases isDir with
    | false =>
      rcases hv : fVerdict filter ⟨p, .mk n (.ok false) l⟩ with _ | _ | _ <;>
        simp [walk_entry, FsTree.ftype, hv, StepOut.stack, FsTree.size]
    | true =>
      cases l with
      | fail err =>
        rcases hv : fVerdict filter ⟨p, .mk n (.ok true) (.fail err)⟩ with _ | _ | _ <;>
          simp [walk_entry, FsTree.ftype, FsTree.listing, hv, StepOut.stack, FsTree.size,
            Listing.size]
      | ok items =>
        rcases hv : fVerdict filter ⟨p, .mk n (.ok true) (.ok items)⟩ with _ | _ | _ <;>
          simp [walk_entry, FsTree.ftype, FsTree.listing, hv, StepOut.stack, FsTree.size,
            Listing.size, stackSize]

/-- Decreasing measure for `walk`: consuming a raw item always shrinks it. -/
def walkMeasure (dirs : List Handle) : Nat := 2 * stackSize dirs + dirs.length

/-- Shallow embedding of `walk` (src/lib.rs, lines 185-205): read the next
raw member of the top-of-stack handle.  An empty stack ends the stream; an
exhausted handle is popped and the walk retried; a read error is yielded
with no handle pushed, popped or replaced (the top handle itself having
been advanced past the failing record by its own `next()` call); a raw
entry is handed to `walk_entry`, and when the latter discards the entry the
walk continues until something is yielded or the stack empties. -/
def walk (filter : Option Filter) (dirs : List Handle) :
    EngineRes (Option (Except Nat Entry × List Handle)) :=
  match dirs with
  | [] => ⟨[], [], none⟩
  | h :: rest =>
    match hi : h.items with
    | .nil => walk filter rest
    | .errItem err more => ⟨[], [], some (.error err, ⟨h.parent, more⟩ :: rest)⟩
    | .okItem t more =>
      match hwe : walk_entry filter ⟨h.parent ++ [t.name], t⟩ (⟨h.parent, more⟩ :: rest) with
      | ⟨c, o, .yield r d⟩ => ⟨c, o, some (r, d)⟩
      | ⟨c, o, .keepWalking d⟩ =>
        let res := walk filter d
        ⟨c ++ res.calls, o ++ res.ops, res.out⟩
termination_by walkMeasure dirs
decreasing_by
  · simp [walkMeasure, stackSize, hi, Items.size]
  · have hb := walk_entry_stack_bound filter ⟨h.parent ++ [t.name], t⟩ (⟨h.parent, more⟩ :: rest)
    rw [hwe] at hb
    simp only [StepOut.stack] at hb
    simp [walkMeasure, stackSize, hi, Items.size] at hb ⊢
    omega

theorem walk_nil (filter : Option Filter) : walk filter [] = ⟨[], [], none⟩ := by
  rw [walk]

theorem walk_pop (filter : Option Filter) (h : Handle) (rest : List Handle)
    (hi : h.items = .nil) : walk filter (h :: rest) = walk filter rest := by
  rw [walk, hi]

theorem walk_err (filter : Option Filter) (h : Handle) (rest : List Handle)
    (err : Nat) (more : Items) (hi : h.items = .errItem err more) :
    walk filter (h :: rest) = ⟨[], [], some (.error err, ⟨h.parent, more⟩ :: rest)⟩ := by
  rw [walk, hi]

theorem walk_ok_yield (filter : Option Filter) (h : Handle) (rest : List Handle)
    (t : FsTree) (more : Items) (c : List Entry) (o : List FsOp)
    (r : Except Nat Entry) (d : List Handle)
    (hi : h.items = .okItem t more)
    (hwe : walk_entry filter ⟨h.parent ++ [t.name], t⟩ (⟨h.parent, more⟩ :: rest) =
      ⟨c, o, .yield r d⟩) :
    walk filter (h :: rest) = ⟨c, o, some (r, d)⟩ := by
  rw [walk, hi]
  split
  next heq => simp at heq
  next o' m' heq => simp at heq
  next t' m' heq =>
    injection heq with h1 h2
    subst h1
    subst h2
    split
    next c' o' r' d' heq2 =>
      rw [hwe] at heq2
      cases heq2
      rfl
    next c' o' d' heq2 =>
      rw [hwe] at heq2
      simp at heq2

theorem walk_ok_keep (filter : Option Filter) (h : Handle) (rest : List Handle)
    (t : FsTree) (more : Items) (c : List Entry) (o : List FsOp) (d : List Handle)
    (hi : h.items = .okItem t more)
    (hwe : walk_entry filter ⟨h.parent ++ [t.name], t⟩ (⟨h.parent, more⟩ :: rest) =
      ⟨c, o, .keepWalking d⟩) :
    walk filter (h :: rest) =
      ⟨c ++ (walk filter d).calls, o ++ (walk filter d).ops, (walk filter d).out⟩ := by
  rw [walk, hi]
  split
  next heq => simp at heq
  next o' m' heq => simp at heq
  next t' m' heq =>
    injection heq with h1 h2
    subst h1
    subst h2
    split
    next c' o' r' d' heq2 =>
      rw [hwe] at heq2
      simp at heq2
    next c' o' d' heq2 =>
      rw [hwe] at heq2
      cases heq2
      rfl

/-- Whenever `walk` yields an item, the remaining stack is strictly smaller:
the engine consumed at least one raw item to produce it. -/
theorem walk_some_measure (filter : Option Filter) (dirs : List Handle) :
    ∀ {r : Except Nat Entry} {d : List Handle},
      (walk filter dirs).out = some (r, d) → walkMeasure d < walkMeasure dirs := by
  induction dirs using walk.induct filter with
  | case1 =>
    intro r d hout
    rw [walk_nil] at hout
    exact absurd hout (by simp)
  | case2 h rest hi ih =>
    intro r d hout
    rw [walk_pop filter h rest hi] at hout
    have := ih hout
    simp [walkMeasure, stackSize, hi, Items.size] at this ⊢
    omega
  | case3 h rest err more hi =>
    intro r d hout
    rw [walk_err filter h rest err more hi] at hout
    simp at hout
    obtain ⟨h1, h2⟩ := hout
    subst h2
    simp [walkMeasure, stackSize, hi, Items.size]
  | case4 h rest t more hi c o r' d' hwe =>
    intro r d hout
    rw [walk_ok_yield filter h rest t more c o r' d' hi hwe] at hout
    simp at hout
    obtain ⟨h1, h2⟩ := hout
    subst h2
    have hb := walk_entry_stack_bound filter ⟨h.parent ++ [t.name], t⟩ (⟨h.parent, more⟩ :: rest)
    rw [hwe] at hb
    simp only [StepOut.stack] at hb
    simp [walkMeasure, stackSize, hi, Items.size] at hb ⊢
    omega
  | case5 h rest t more hi c o d' hwe ih =>
    intro r d hout
    rw [walk_ok_keep filter h rest t more c o d' hi hwe] at hout
    simp at hout
    have hlt := ih hout
    have hb := walk_entry_stack_bound filter ⟨h.parent ++ [t.name], t⟩ (⟨h.parent, more⟩ :: rest)
    rw [hwe] at hb
    simp only [StepOut.stack] at hb
    have hpos := FsTree.size_pos t
    simp [walkMeasure, stackSize, hi, Items.size] at hb hlt ⊢
    omega

/-- Run the engine to exhaustion from a given stack: the sequence of items
the stream emits from here on (`stream::unfold` repeatedly polling `walk`,
src/lib.rs lines 161-175, collected into a list), together with all filter
invocations and filesystem operations performed.  Total because every
yielded item consumes raw input (`walk_some_measure`). -/
def runWalk (filter : Option Filter) (dirs : List Handle) :
    EngineRes (List (Except Nat Entry)) :=
  match hw : (walk filter dirs).out with
  | none => ⟨(walk filter dirs).calls, (walk filter dirs).ops, []⟩
  | some (r, d) =>
    let res := runWalk filter d
    ⟨(walk filter dirs).calls ++ res.calls, (walk filter dirs).ops ++ res.ops, r :: res.out⟩
termination_by walkMeasure dirs
decreasing_by exact walk_some_measure filter dirs hw

theorem runWalk_none (filter : Option Filter) (dirs : List Handle)
    (hout : (walk filter dirs).out = none) :
    runWalk filter dirs = ⟨(walk filter dirs).calls, (walk filter dirs).ops, []⟩ := by
  rw [runWalk]
  split
  next hw => rfl
  next r d hw => rw [hout] at hw; exact absurd hw (by simp)

theorem runWalk_some (filter : Option Filter) (dirs : List Handle)
    (r : Except Nat Entry) (d : List Handle)
    (hout : (walk filter dirs).out = some (r, d)) :
    runWalk filter dirs =
      ⟨(walk filter dirs).calls ++ (runWalk filter d).calls,
       (walk filter dirs).ops ++ (runWalk filter d).ops,
       r :: (runWalk filter d).out⟩ := by
  rw [runWalk]
  split
  next hw => rw [hout] at hw; exact absurd hw (by simp)
  next r' d' hw =>
    rw [hout] at hw
    cases hw
    rfl

/-- Composition: when one `walk` call resolves, after discarding some
entries, to the same outcome as a `walk` from an intermediate stack, the
full runs emit the same items, and the same filter invocations up to the
discarded prefix. -/
theorem runWalk_skip (filter : Option Filter) (dirs d : List Handle) (c : List Entry)
    (hc : (walk filter dirs).calls = c ++ (walk filter d).calls)
    (ho : (walk filter dirs).out = (walk filter d).out) :
    (runWalk filter dirs).out = (runWalk filter d).out ∧
    (runWalk filter dirs).calls = c ++ (runWalk filter d).calls := by
  cases hw : (walk filter d).out with
  | none =>
    rw [runWalk_none filter dirs (ho.trans hw), runWalk_none filter d hw]
    simp [hc]
  | some rd =>
    obtain ⟨r, d2⟩ := rd
    rw [runWalk_some filter dirs r d2 (ho.trans hw), runWalk_some filter d r d2 hw]
    simp [hc]

mutual
/-- The items the engine emits for one raw tree `t` discovered under
`parent`, read off `walk_entry`: a classification failure or a failed
directory open surfaces as one error; otherwise a `Continue` verdict yields
the entry, descent happens for directories unless the verdict is
`IgnoreDir`, and the subtree's emissions follow (depth-first, before any
sibling of the entry). -/
def denoOutTree (filter : Option Filter) (parent : List String) :
    FsTree → List (Except Nat Entry)
  | .mk n ft l =>
    let e : Entry := ⟨parent ++ [n], .mk n ft l⟩
    match ft with
    | .error err => [.error err]
    | .ok isDir =>
      if isDir then
        match l with
        | .fail err => [.error err]
        | .ok items =>
          match fVerdict filter e with
          | .Continue => .ok e :: denoOutItems filter (parent ++ [n]) items
          | .Ignore => denoOutItems filter (parent ++ [n]) items
          | .IgnoreDir => []
      else
        match fVerdict filter e with
        | .Continue => [.ok e]
        | _ => []

/-- The items the engine emits for a sequence of raw records of one open
handle: read errors surface in place, trees contribute their emissions in
order. -/
def denoOutItems (filter : Option Filter) (parent : List String) :
    Items → List (Except Nat Entry)
  | .nil => []
  | .errItem err rest => .error err :: denoOutItems filter parent rest
  | .okItem t rest => denoOutTree filter parent t ++ denoOutItems filter parent rest
end

mutual
/-- The filter invocations the engine performs for one raw tree: none when
classification fails, one for the entry otherwise, followed by the
subtree's invocations when the engine descends (directory, verdict not
`IgnoreDir`, listing opened successfully). -/
def denoCallsTree (filter : Option Filter) (parent : List String) : FsTree → List Entry
  | .mk n ft l =>
    let e : Entry := ⟨parent ++ [n], .mk n ft l⟩
    match ft with
    | .error _ => []
    | .ok isDir =>
      if isDir then
        match l with
        | .fail _ => fCalls filter e
        | .ok items =>
          match fVerdict filter e with
          | .IgnoreDir => fCalls filter e
          | _ => fCalls filter e ++ denoCallsItems filter (parent ++ [n]) items
      else fCalls filter e

/-- The filter invocations the engine performs across the raw records of
one handle. -/
def denoCallsItems (filter : Option Filter) (parent : List String) : Items → List Entry
  | .nil => []
  | .errItem _ rest => denoCallsItems filter parent rest
  | .okItem t rest => denoCallsTree filter parent t ++ denoCallsItems filter parent rest
end

theorem we_ftErr (filter : Option Filter) (e : Entry) (dirs : List Handle) (err : Nat)
    (hft : e.tree.ftype = .error err) :
    walk_entry filter e dirs = ⟨[], [.fileType e.path], .yield (.error err) dirs⟩ := by
  simp [walk_entry, hft]

theorem we_dirFail (filter : Option Filter) (e : Entry) (dirs : List Handle) (err : Nat)
    (hft : e.tree.ftype = .ok true) (hl : e.tree.listing = .fail err) :
    walk_entry filter e dirs =
      ⟨fCalls filter e, [.fileType e.path, .readDir e.path], .yield (.error err) dirs⟩ := by
  simp [walk_entry, hft, hl]

theorem we_dirContinue (filter : Option Filter) (e : Entry) (dirs : List Handle)
    (items : Items) (hft : e.tree.ftype = .ok true) (hl : e.tree.listing = .ok items)
    (hv : fVerdict filter e = .Continue) :
    walk_entry filter e dirs =
      ⟨fCalls filter e, [.fileType e.path, .readDir e.path],
        .yield (.ok e) (⟨e.path, items⟩ :: dirs)⟩ := by
  simp [walk_entry, hft, hl, hv]

theorem we_dirIgnore (filter : Option Filter) (e : Entry) (dirs : List Handle)
    (items : Items) (hft : e.tree.ftype = .ok true) (hl : e.tree.listing = .ok items)
    (hv : fVerdict filter e = .Ignore) :
    walk_entry filter e dirs =
      ⟨fCalls filter e, [.fileType e.path, .readDir e.path],
        .keepWalking (⟨e.path, items⟩ :: dirs)⟩ := by
  simp [walk_entry, hft, hl, hv]

theorem we_dirIgnoreDir (filter : Option Filter) (e : Entry) (dirs : List Handle)
    (items : Items) (hft : e.tree.ftype = .ok true) (hl : e.tree.listing = .ok items)
    (hv : fVerdict filter e = .IgnoreDir) :
    walk_entry filter e dirs =
      ⟨fCalls filter e, [.fileType e.path, .readDir e.path], .keepWalking dirs⟩ := by
  simp [walk_entry, hft, hl, hv]

theorem we_fileContinue (filter : Option Filter) (e : Entry) (dirs : List Handle)
    (hft : e.tree.ftype = .ok false) (hv : fVerdict filter e = .Continue) :
    walk_entry filter e dirs =
      ⟨fCalls filter e, [.fileType e.path], .yield (.ok e) dirs⟩ := by
  simp [walk_entry, hft, hv]

theorem we_fileSkip (filter : Option Filter) (e : Entry) (dirs : List Handle)
    (hft : e.tree.ftype = .ok false) (hv : fVerdict filter e ≠ .Continue) :
    walk_entry filter e dirs =
      ⟨fCalls filter e, [.fileType e.path], .keepWalking dirs⟩ := by
  rcases h : fVerdict filter e with _ | _ | _ <;>
    simp [walk_entry, hft, h] <;> exact absurd h hv

/-- Stack-machine/denotational correspondence: running the engine with a
handle `⟨p, items⟩` on top emits that handle's denotational items followed
by whatever the rest of the stack emits, and performs the corresponding
filter invocations in order. -/
theorem runWalk_deno (filter : Option Filter) :
    ∀ (n : Nat) (items : Items), Items.size items ≤ n →
      ∀ (p : List String) (rest : List Handle),
        (runWalk filter (⟨p, items⟩ :: rest)).out
          = denoOutItems filter p items ++ (runWalk filter rest).out ∧
        (runWalk filter (⟨p, items⟩ :: rest)).calls
          = denoCallsItems filter p items ++ (runWalk filter rest).calls := by
  intro n
  induction n using Nat.strong_induction_on with
  | _ n ih =>
  intro items hsz p rest
  cases items with
  | nil =>
    have hpop : walk filter (⟨p, .nil⟩ :: rest) = walk filter rest :=
      walk_pop filter ⟨p, .nil⟩ rest rfl
    have hskip := runWalk_skip filter (⟨p, .nil⟩ :: rest) rest []
      (by rw [hpop]; simp) (by rw [hpop])
    simp [denoOutItems, denoCallsItems, hskip.1, hskip.2]
  | errItem err more =>
    have hlt : Items.size more < n := by
      simp [Items.size] at hsz; omega
    have IH := ih (Items.size more) hlt more le_rfl p rest
    have hw : walk filter (⟨p, .errItem err more⟩ :: rest)
        = ⟨[], [], some (.error err, ⟨p, more⟩ :: rest)⟩ :=
      walk_err filter ⟨p, .errItem err more⟩ rest err more rfl
    have hrs := runWalk_some filter (⟨p, .errItem err more⟩ :: rest) (.error err)
      (⟨p, more⟩ :: rest) (by rw [hw])
    rw [hrs]
    simp [hw, denoOutItems, denoCallsItems, IH.1, IH.2]
  | okItem t more =>
    obtain ⟨nm, ft, l⟩ := t
    have hlt : Items.size more < n := by
      have := FsTree.size_pos (.mk nm ft l)
      simp [Items.size] at hsz; omega
    have IHm := ih (Items.size more) hlt more le_rfl p rest
    cases ft with
    | error err =>
      have hwe := we_ftErr filter ⟨p ++ [nm], .mk nm (.error err) l⟩
        (⟨p, more⟩ :: rest) err rfl
      have hw := walk_ok_yield filter ⟨p, .okItem (.mk nm (.error err) l) more⟩ rest
        (.mk nm (.error err) l) more [] [.fileType (p ++ [nm])] (.error err)
        (⟨p, more⟩ :: rest) rfl hwe
      have hrs := runWalk_some filter (⟨p, .okItem (.mk nm (.error err) l) more⟩ :: rest)
        (.error err) (⟨p, more⟩ :: rest) (by rw [hw])
      rw [hrs]
      simp [hw, denoOutItems, denoOutTree, denoCallsItems, denoCallsTree, IHm.1, IHm.2]
    | ok isDir =>
      cases isDir with
      | false =>
        rcases hv : fVerdict filter ⟨p ++ [nm], .mk nm (.ok false) l⟩ with _ | _ | _
        · have hwe := we_fileSkip filter ⟨p ++ [nm], .mk nm (.ok false) l⟩
            (⟨p, more⟩ :: rest) rfl (by simp [hv])
          have hw := walk_ok_keep filter ⟨p, .okItem (.mk nm (.ok false) l) more⟩ rest
            (.mk nm (.ok false) l) more (fCalls filter ⟨p ++ [nm], .mk nm (.ok false) l⟩)
            [.fileType (p ++ [nm])] (⟨p, more⟩ :: rest) rfl hwe
          have hskip := runWalk_skip filter (⟨p, .okItem (.mk nm (.ok false) l) more⟩ :: rest)
            (⟨p, more⟩ :: rest) (fCalls filter ⟨p ++ [nm], .mk nm (.ok false) l⟩)
            (by rw [hw]) (by rw [hw])
          constructor
          · rw [hskip.1, IHm.1]
            simp [denoOutItems, denoOutTree, hv]
          · rw [hskip.2, IHm.2]
            simp [denoCallsItems, denoCallsTree, hv]
        · have hwe := we_fileSkip filter ⟨p ++ [nm], .mk nm (.ok false) l⟩
            (⟨p, more⟩ :: rest) rfl (by simp [hv])
          have hw := walk_ok_keep filter ⟨p, .okItem (.mk nm (.ok false) l) more⟩ rest
            (.mk nm (.ok false) l) more (fCalls filter ⟨p ++ [nm], .mk nm (.ok false) l⟩)
            [.fileType (p ++ [nm])] (⟨p, more⟩ :: rest) rfl hwe
          have hskip := runWalk_skip filter (⟨p, .okItem (.mk nm (.ok false) l) more⟩ :: rest)
            (⟨p, more⟩ :: rest) (fCalls filter ⟨p ++ [nm], .mk nm (.ok false) l⟩)
            (by rw [hw]) (by rw [hw])
          constructor
          · rw [hskip.1, IHm.1]
            simp [denoOutItems, denoOutTree, hv]
          · rw [hskip.2, IHm.2]
            simp [denoCallsItems, denoCallsTree, hv]
        · have hwe := we_fileContinue filter ⟨p ++ [nm], .mk nm (.ok false) l⟩
            (⟨p, more⟩ :: rest) rfl hv
          have hw := walk_ok_yield filter ⟨p, .okItem (.mk nm (.ok false) l) more⟩ rest
            (.mk nm (.ok false) l) more (fCalls filter ⟨p ++ [nm], .mk nm (.ok false) l⟩)
            [.fileType (p ++ [nm])] (.ok ⟨p ++ [nm], .mk nm (.ok false) l⟩)
            (⟨p, more⟩ :: rest) rfl hwe
          have hrs := runWalk_some filter (⟨p, .okItem (.mk nm (.ok false) l) more⟩ :: rest)
            (.ok ⟨p ++ [nm], .mk nm (.ok false) l⟩) (⟨p, more⟩ :: rest) (by rw [hw])
          rw [hrs]
          simp [hw, denoOutItems, denoOutTree, denoCallsItems, denoCallsTree, hv,
            IHm.1, IHm.2]
      | true =>
        cases l with
        | fail err =>
          have hwe := we_dirFail filter ⟨p ++ [nm], .mk nm (.ok true) (.fail err)⟩
            (⟨p, more⟩ :: rest) err rfl rfl
          have hw := walk_ok_yield filter
            (⟨p, .okItem (.mk nm (.ok true) (.fail err)) more⟩) rest
            (.mk nm (.ok true) (.fail err)) more
            (fCalls filter ⟨p ++ [nm], .mk nm (.ok true) (.fail err)⟩)
            [.fileType (p ++ [nm]), .readDir (p ++ [nm])] (.error err)
            (⟨p, more⟩ :: rest) rfl hwe
          have hrs := runWalk_some filter
            (⟨p, .okItem (.mk nm (.ok true) (.fail err)) more⟩ :: rest)
            (.error err) (⟨p, more⟩ :: rest) (by rw [hw])
          rw [hrs]
          simp [hw, denoOutItems, denoOutTree, denoCallsItems, denoCallsTree, IHm.1, IHm.2]
        | ok chitems =>
          have hlt2 : Items.size chitems < n := by
            simp [Items.size, FsTree.size, Listing.size] at hsz; omega
          have IHc := ih (Items.size chitems) hlt2 chitems le_rfl (p ++ [nm])
            (⟨p, more⟩ :: rest)
          rcases hv : fVerdict filter ⟨p ++ [nm], .mk nm (.ok true) (.ok chitems)⟩
            with _ | _ | _
          · have hwe := we_dirIgnore filter ⟨p ++ [nm], .mk nm (.ok true) (.ok chitems)⟩
              (⟨p, more⟩ :: rest) chitems rfl rfl hv
            have hw := walk_ok_keep filter
              (⟨p, .okItem (.mk nm (.ok true) (.ok chitems)) more⟩) rest
              (.mk nm (.ok true) (.ok chitems)) more
              (fCalls filter ⟨p ++ [nm], .mk nm (.ok true) (.ok chitems)⟩)
              [.fileType (p ++ [nm]), .readDir (p ++ [nm])]
              (⟨p ++ [nm], chitems⟩ :: ⟨p, more⟩ :: rest) rfl hwe
            have hskip := runWalk_skip filter
              (⟨p, .okItem (.mk nm (.ok true) (.ok chitems)) more⟩ :: rest)
              (⟨p ++ [nm], chitems⟩ :: ⟨p, more⟩ :: rest)
              (fCalls filter ⟨p ++ [nm], .mk nm (.ok true) (.ok chitems)⟩)
              (by rw [hw]) (by rw [hw])
            constructor
            · rw [hskip.1, IHc.1, IHm.1]
              simp [denoOutItems, denoOutTree, hv]
            · rw [hskip.2, IHc.2, IHm.2]
              simp [denoCallsItems, denoCallsTree, hv]
          · have hwe := we_dirIgnoreDir filter
              ⟨p ++ [nm], .mk nm (.ok true) (.ok chitems)⟩
              (⟨p, more⟩ :: rest) chitems rfl rfl hv
            have hw := walk_ok_keep filter
              (⟨p, .okItem (.mk nm (.ok true) (.ok chitems)) more⟩) rest
              (.mk nm (.ok true) (.ok chitems)) more
              (fCalls filter ⟨p ++ [nm], .mk nm (.ok true) (.ok chitems)⟩)
              [.fileType (p ++ [nm]), .readDir (p ++ [nm])]
              (⟨p, more⟩ :: rest) rfl hwe
            have hskip := runWalk_skip filter
              (⟨p, .okItem (.mk nm (.ok true) (.ok chitems)) more⟩ :: rest)
              (⟨p, more⟩ :: rest)
              (fCalls filter ⟨p ++ [nm], .mk nm (.ok true) (.ok chitems)⟩)
              (by rw [hw]) (by rw [hw])
            constructor
            · rw [hskip.1, IHm.1]
              simp [denoOutItems, denoOutTree, hv]
            · rw [hskip.2, IHm.2]
              simp [denoCallsItems, denoCallsTree, hv]
          · have hwe := we_dirContinue filter
              ⟨p ++ [nm], .mk nm (.ok true) (.ok chitems)⟩
              (⟨p, more⟩ :: rest) chitems rfl rfl hv
            have hw := walk_ok_yield filter
              (⟨p, .okItem (.mk nm (.ok true) (.ok chitems)) more⟩) rest
              (.mk nm (.ok true) (.ok chitems)) more
              (fCalls filter ⟨p ++ [nm], .mk nm (.ok true) (.ok chitems)⟩)
              [.fileType (p ++ [nm]), .readDir (p ++ [nm])]
              (.ok ⟨p ++ [nm], .mk nm (.ok true) (.ok chitems)⟩)
              (⟨p ++ [nm], chitems⟩ :: ⟨p, more⟩ :: rest) rfl hwe
            have hrs := runWalk_some filter
              (⟨p, .okItem (.mk nm (.ok true) (.ok chitems)) more⟩ :: rest)
              (.ok ⟨p ++ [nm], .mk nm (.ok true) (.ok chitems)⟩)
              (⟨p ++ [nm], chitems⟩ :: ⟨p, more⟩ :: rest) (by rw [hw])
            rw [hrs]
            simp [hw, IHc.1, IHc.2, IHm.1, IHm.2, denoOutItems, denoOutTree,
              denoCallsItems, denoCallsTree, hv]

/-- The unfold state of `walk_dir` (src/lib.rs lines 177-181): not yet
started (holding only the root path), actively walking a stack of open
handles, or terminated.  The filter, which the source moves through the
states unchanged, is a parameter of the step function here. -/
inductive WState where
  | Start (root : List String)
  | Walk (dirs : List Handle)
  | Done
deriving DecidableEq

/-- One poll of the unfold closure of `walk_dir` (src/lib.rs lines
161-175): from `Start`, `read_dir(root)` is performed — failure surfaces
the error as an item and moves to `Done`, success starts walking the
one-handle stack; from `Walk`, one `walk` step runs; from `Done` the
result is `none` and nothing touches the filesystem.  `env` is the result
`read_dir` produces at the root. -/
def stepState (env : Listing) (filter : Option Filter) :
    WState → EngineRes (Option (Except Nat Entry × WState))
  | .Start root =>
    match env with
    | .fail e => ⟨[], [.readDir root], some (.error e, .Done)⟩
    | .ok items =>
      let w := walk filter [⟨root, items⟩]
      ⟨w.calls, .readDir root :: w.ops, w.out.map (fun rd => (rd.1, .Walk rd.2))⟩
  | .Walk dirs =>
    let w := walk filter dirs
    ⟨w.calls, w.ops, w.out.map (fun rd => (rd.1, .Walk rd.2))⟩
  | .Done => ⟨[], [], none⟩

/-- Decreasing measure on unfold states. -/
def stateMeasure (env : Listing) : WState → Nat
  | .Done => 0
  | .Walk dirs => walkMeasure dirs + 1
  | .Start _ =>
    match env with
    | .fail _ => 1
    | .ok items => 2 * Items.size items + 2

theorem stepState_measure (env : Listing) (filter : Option Filter) (s : WState)
    {r : Except Nat Entry} {s' : WState}
    (h : (stepState env filter s).out = some (r, s')) :
    stateMeasure env s' < stateMeasure env s := by
  cases s with
  | Done => simp [stepState] at h
  | Walk dirs =>
    simp only [stepState, Option.map_eq_map] at h
    rw [Option.map_eq_some'] at h
    obtain ⟨rd, hrd, heq⟩ := h
    obtain ⟨hr, hs'⟩ := Prod.mk.injEq .. ▸ heq
    subst hs'
    have := walk_some_measure filter dirs (by rw [hrd])
    simp [stateMeasure]
    omega
  | Start root =>
    cases env with
    | fail e =>
      simp [stepState] at h
      obtain ⟨h1, h2⟩ := h
      subst h2
      simp [stateMeasure]
    | ok items =>
      simp only [stepState, Option.map_eq_map] at h
      rw [Option.map_eq_some'] at h
      obtain ⟨rd, hrd, heq⟩ := h
      obtain ⟨hr, hs'⟩ := Prod.mk.injEq .. ▸ heq
      subst hs'
      have := walk_some_measure filter [⟨root, items⟩] (by rw [hrd])
      simp [stateMeasure, walkMeasure, stackSize] at this ⊢
      omega

/-- All items the stream emits from a given unfold state on, with the
filter invocations and filesystem operations performed. -/
def runState (env : Listing) (filter : Option Filter) (s : WState) :
    EngineRes (List (Except Nat Entry)) :=
  match hs : (stepState env filter s).out with
  | none => ⟨(stepState env filter s).calls, (stepState env filter s).ops, []⟩
  | some (r, s') =>
    let res := runState env filter s'
    ⟨(stepState env filter s).calls ++ res.calls,
     (stepState env filter s).ops ++ res.ops, r :: res.out⟩
termination_by stateMeasure env s
decreasing_by exact stepState_measure env filter s hs

theorem runState_none (env : Listing) (filter : Option Filter) (s : WState)
    (hout : (stepState env filter s).out = none) :
    runState env filter s =
      ⟨(stepState env filter s).calls, (stepState env filter s).ops, []⟩ := by
  rw [runState]
  split
  next hw => rfl
  next r s' hw => rw [hout] at hw; exact absurd hw (by simp)

theorem runState_some (env : Listing) (filter : Option Filter) (s : WState)
    (r : Except Nat Entry) (s' : WState)
    (hout : (stepState env filter s).out = some (r, s')) :
    runState env filter s =
      ⟨(stepState env filter s).calls ++ (runState env filter s').calls,
       (stepState env filter s).ops ++ (runState env filter s').ops,
       r :: (runState env filter s').out⟩ := by
  rw [runState]
  split
  next hw => rw [hout] at hw; exact absurd hw (by simp)
  next r' s'' hw =>
    rw [hout] at hw
    cases hw
    rfl

/-- From a `Walk` state, the remaining stream is exactly a `runWalk` of its
stack. -/
theorem runState_walk (env : Listing) (filter : Option Filter) :
    ∀ (n : Nat) (dirs : List Handle), walkMeasure dirs ≤ n →
      runState env filter (.Walk dirs) = runWalk filter dirs := by
  intro n
  induction n using Nat.strong_induction_on with
  | _ n ih =>
  intro dirs hn
  cases hw : (walk filter dirs).out with
  | none =>
    have hstep : (stepState env filter (.Walk dirs)).out = none := by
      simp [stepState, hw]
    rw [runState_none env filter _ hstep, runWalk_none filter dirs hw]
    simp [stepState]
  | some rd =>
    obtain ⟨r, d⟩ := rd
    have hstep : (stepState env filter (.Walk dirs)).out = some (r, .Walk d) := by
      simp [stepState, hw]
    have hmes := walk_some_measure filter dirs (by rw [hw])
    have IH := ih (walkMeasure d) (by omega) d le_rfl
    rw [runState_some env filter _ r (.Walk d) hstep, runWalk_some filter dirs r d hw, IH]
    simp [stepState]

/-- Shallow embedding of `walk_dir` (src/lib.rs lines 156-175), run to
exhaustion: the entire item sequence the returned stream produces, with
the filter invocations and filesystem operations performed.  `env` is what
`read_dir(root)` returns; everything below the root is described by the
trees inside `env`. -/
def walk_dir (root : List String) (env : Listing) (filter : Option Filter) :
    EngineRes (List (Except Nat Entry)) :=
  runState env filter (.Start root)

theorem walk_dir_fail (root : List String) (e : Nat) (filter : Option Filter) :
    walk_dir root (.fail e) filter = ⟨[], [.readDir root], [.error e]⟩ := by
  have hstep : (stepState (.fail e) filter (.Start root)).out
      = some (.error e, .Done) := by
    simp [stepState]
  rw [walk_dir, runState_some _ filter _ (.error e) .Done hstep,
    runState_none _ filter .Done (by simp [stepState])]
  simp [stepState]

theorem walk_dir_ok (root : List String) (items : Items) (filter : Option Filter) :
    walk_dir root (.ok items) filter =
      ⟨(runWalk filter [⟨root, items⟩]).calls,
       .readDir root :: (runWalk filter [⟨root, items⟩]).ops,
       (runWalk filter [⟨root, items⟩]).out⟩ := by
  rw [walk_dir]
  cases hw : (walk filter [⟨root, items⟩]).out with
  | none =>
    have hstep : (stepState (.ok items) filter (.Start root)).out = none := by
      simp [stepState, hw]
    rw [runState_none _ filter _ hstep, runWalk_none filter _ hw]
    simp [stepState]
  | some rd =>
    obtain ⟨r, d⟩ := rd
    have hstep : (stepState (.ok items) filter (.Start root)).out
        = some (r, .Walk d) := by
      simp [stepState, hw]
    rw [runState_some _ filter _ r (.Walk d) hstep, runWalk_some filter _ r d hw,
      runState_walk (.ok items) filter (walkMeasure d) d le_rfl]
    simp [stepState]

/-- Shallow embedding of the `WalkDir` value built by `WalkDir::new`
(src/lib.rs lines 121-131): the stored root and the unfold stream's
initial state.  Wrapped in `EngineRes` so that the filesystem operations
construction performs are recorded: there are none — `read_dir` occurs
only inside the unfold closure (`stepState`). -/
structure WalkDir where
  root : List String
  state : WState
deriving DecidableEq

def WalkDir.new (root : List String) : EngineRes WalkDir :=
  ⟨[], [], ⟨root, .Start root⟩⟩

mutual
/-- A tree is clean when it contains no I/O failure: every classification
succeeds, every listing opens, and no read error is embedded in a listing.
Real directory trees — the domain over which the specification's claims
about "every directory tree" range — are clean. -/
def CleanTree : FsTree → Bool
  | .mk _ ft l =>
    (match ft with
     | .ok _ => true
     | .error _ => false) && CleanListing l

def CleanListing : Listing → Bool
  | .fail _ => false
  | .ok items => CleanItems items

def CleanItems : Items → Bool
  | .nil => true
  | .errItem _ _ => false
  | .okItem t rest => CleanTree t && CleanItems rest
end

/-- The names of the trees among a handle's raw items. -/
def itemNames : Items → List String
  | .nil => []
  | .errItem _ rest => itemNames rest
  | .okItem t rest => t.name :: itemNames rest

mutual
/-- Sibling names are distinct throughout the tree, as they are in a real
directory. -/
def UniqueTree : FsTree → Bool
  | .mk _ _ l =>
    match l with
    | .fail _ => true
    | .ok items => decide (itemNames items).Nodup && UniqueItems items

def UniqueItems : Items → Bool
  | .nil => true
  | .errItem _ rest => UniqueItems rest
  | .okItem t rest => UniqueTree t && UniqueItems rest
end

mutual
/-- The entries the engine discovers (reads off an open handle) while
traversing `t` under `parent`, in discovery order: the entry itself, then —
when it is classified as a directory, its listing opens, and its verdict is
not `IgnoreDir` — the entries discovered inside it. -/
def visitedTree (filter : Option Filter) (parent : List String) : FsTree → List Entry
  | .mk n ft l =>
    let e : Entry := ⟨parent ++ [n], .mk n ft l⟩
    e :: (match ft with
      | .ok true =>
        (match l with
         | .ok items =>
           if fVerdict filter e ≠ .IgnoreDir then visitedItems filter (parent ++ [n]) items
           else []
         | .fail _ => [])
      | .ok false => []
      | .error _ => [])

/-- The entries discovered across one handle's raw items. -/
def visitedItems (filter : Option Filter) (parent : List String) : Items → List Entry
  | .nil => []
  | .errItem _ rest => visitedItems filter parent rest
  | .okItem t rest => visitedTree filter parent t ++ visitedItems filter parent rest
end

/-- All entries of the tree, in depth-first discovery order: with no filter
every verdict is `Continue`, so nothing is pruned. -/
def allEntriesItems (parent : List String) (items : Items) : List Entry :=
  visitedItems none parent items

/-- Every discovered entry's path extends the handle's directory path by
the name of the sibling it was found under, followed by the path inside
that sibling's subtree. -/
theorem visited_path_shape (filter : Option Filter) :
    ∀ (n : Nat) (items : Items), Items.size items ≤ n →
      ∀ (p : List String) (x : Entry), x ∈ visitedItems filter p items →
        ∃ nm r, x.path = p ++ nm :: r ∧ nm ∈ itemNames items := by
  intro n
  induction n using Nat.strong_induction_on with
  | _ n ih =>
  intro items hsz p x hx
  cases items with
  | nil => simp [visitedItems] at hx
  | errItem err more =>
    have hlt : Items.size more < n := by simp [Items.size] at hsz; omega
    obtain ⟨nm, r, hp, hnm⟩ := ih (Items.size more) hlt more le_rfl p x
      (by simpa [visitedItems] using hx)
    exact ⟨nm, r, hp, by simp [itemNames, hnm]⟩
  | okItem t more =>
    obtain ⟨nm0, ft, l⟩ := t
    have hlt : Items.size more < n := by
      have := FsTree.size_pos (.mk nm0 ft l)
      simp [Items.size] at hsz; omega
    rw [visitedItems, List.mem_append] at hx
    rcases hx with hx | hx
    · rcases ft with err | b
      · rw [visitedTree] at hx
        simp at hx
        exact ⟨nm0, [], by simp [hx], by simp [itemNames, FsTree.name]⟩
      · cases b with
        | false =>
          rw [visitedTree] at hx
          simp at hx
          exact ⟨nm0, [], by simp [hx], by simp [itemNames, FsTree.name]⟩
        | true =>
          cases l with
          | fail err =>
            rw [visitedTree] at hx
            simp at hx
            exact ⟨nm0, [], by simp [hx], by simp [itemNames, FsTree.name]⟩
          | ok chitems =>
            rw [visitedTree] at hx
            rcases List.mem_cons.mp hx with hx | hx
            · exact ⟨nm0, [], by simp [hx], by simp [itemNames, FsTree.name]⟩
            · have hlt2 : Items.size chitems < n := by
                simp [Items.size, FsTree.size, Listing.size] at hsz; omega
              by_cases hv : fVerdict filter
                  ⟨p ++ [nm0], .mk nm0 (.ok true) (.ok chitems)⟩ = .IgnoreDir
              · simp [hv] at hx
              · simp only [ne_eq, hv, not_false_iff, if_true] at hx
                obtain ⟨nm', r', hp', _⟩ := ih (Items.size chitems) hlt2 chitems le_rfl
                  (p ++ [nm0]) x hx
                refine ⟨nm0, nm' :: r', ?_, by simp [itemNames, FsTree.name]⟩
                rw [hp']
                simp
    · obtain ⟨nm, r, hp, hnm⟩ := ih (Items.size more) hlt more le_rfl p x hx
      exact ⟨nm, r, hp, by simp [itemNames, hnm]⟩

/-- Only entries whose verdict is `Continue` are ever yielded as successes. -/
theorem denoOut_ok_verdict (filter : Option Filter) :
    ∀ (n : Nat) (items : Items), Items.size items ≤ n →
      ∀ (p : List String) (x : Entry), Except.ok x ∈ denoOutItems filter p items →
        fVerdict filter x = .Continue := by
  intro n
  induction n using Nat.strong_induction_on with
  | _ n ih =>
  intro items hsz p x hx
  cases items with
  | nil => simp [denoOutItems] at hx
  | errItem err more =>
    have hlt : Items.size more < n := by simp [Items.size] at hsz; omega
    rw [denoOutItems] at hx
    rcases List.mem_cons.mp hx with hx | hx
    · exact absurd hx (by simp)
    · exact ih (Items.size more) hlt more le_rfl p x hx
  | okItem t more =>
    obtain ⟨nm, ft, l⟩ := t
    have hlt : Items.size more < n := by
      have := FsTree.size_pos (.mk nm ft l)
      simp [Items.size] at hsz; omega
    rw [denoOutItems, List.mem_append] at hx
    rcases hx with hx | hx
    · rcases ft with err | b
      · simp [denoOutTree] at hx
      · cases b with
        | false =>
          rcases hv : fVerdict filter ⟨p ++ [nm], .mk nm (.ok false) l⟩ with _ | _ | _ <;>
            simp [denoOutTree, hv] at hx
          rw [hx]
          exact hv
        | true =>
          cases l with
          | fail err => simp [denoOutTree] at hx
          | ok chitems =>
            have hlt2 : Items.size chitems < n := by
              simp [Items.size, FsTree.size, Listing.size] at hsz; omega
            rcases hv : fVerdict filter ⟨p ++ [nm], .mk nm (.ok true) (.ok chitems)⟩
              with _ | _ | _ <;> simp [denoOutTree, hv] at hx
            · exact ih (Items.size chitems) hlt2 chitems le_rfl (p ++ [nm]) x hx
            · rcases hx with hx | hx
              · rw [hx]; exact hv
              · exact ih (Items.size chitems) hlt2 chitems le_rfl (p ++ [nm]) x hx
    · exact ih (Items.size more) hlt more le_rfl p x hx

/-- Every yielded entry was discovered. -/
theorem denoOut_sub_visited (filter : Option Filter) :
    ∀ (n : Nat) (items : Items), Items.size items ≤ n →
      ∀ (p : List String) (x : Entry), Except.ok x ∈ denoOutItems filter p items →
        x ∈ visitedItems filter p items := by
  intro n
  induction n using Nat.strong_induction_on with
  | _ n ih =>
  intro items hsz p x hx
  cases items with
  | nil => simp [denoOutItems] at hx
  | errItem err more =>
    have hlt : Items.size more < n := by simp [Items.size] at hsz; omega
    rw [denoOutItems] at hx
    rcases List.mem_cons.mp hx with hx | hx
    · exact absurd hx (by simp)
    · rw [visitedItems]
      exact ih (Items.size more) hlt more le_rfl p x hx
  | okItem t more =>
    obtain ⟨nm, ft, l⟩ := t
    have hlt : Items.size more < n := by
      have := FsTree.size_pos (.mk nm ft l)
      simp [Items.size] at hsz; omega
    rw [denoOutItems, List.mem_append] at hx
    rw [visitedItems, List.mem_append]
    rcases hx with hx | hx
    · left
      rcases ft with err | b
      · simp [denoOutTree] at hx
      · cases b with
        | false =>
          rcases hv : fVerdict filter ⟨p ++ [nm], .mk nm (.ok false) l⟩ with _ | _ | _ <;>
            simp [denoOutTree, hv] at hx
          rw [visitedTree]
          simp [hx]
        | true =>
          cases l with
          | fail err => simp [denoOutTree] at hx
          | ok chitems =>
            have hlt2 : Items.size chitems < n := by
              simp [Items.size, FsTree.size, Listing.size] at hsz; omega
            rw [visitedTree]
            rcases hv : fVerdict filter ⟨p ++ [nm], .mk nm (.ok true) (.ok chitems)⟩
              with _ | _ | _ <;> simp [denoOutTree, hv] at hx
            · refine List.mem_cons_of_mem _ ?_
              simp [hv]
              exact ih (Items.size chitems) hlt2 chitems le_rfl (p ++ [nm]) x hx
            · rcases hx with hx | hx
              · subst hx
                exact List.mem_cons_self _ _
              · refine List.mem_cons_of_mem _ ?_
                simp [hv]
                exact ih (Items.size chitems) hlt2 chitems le_rfl (p ++ [nm]) x hx
    · exact Or.inr (ih (Items.size more) hlt more le_rfl p x hx)

/-- In a clean tree, every discovered entry whose verdict is `Continue` is
yielded. -/
theorem visited_continue_yielded (filter : Option Filter) :
    ∀ (n : Nat) (items : Items), Items.size items ≤ n → CleanItems items = true →
      ∀ (p : List String) (x : Entry), x ∈ visitedItems filter p items →
        fVerdict filter x = .Continue → Except.ok x ∈ denoOutItems filter p items := by
  intro n
  induction n using Nat.strong_induction_on with
  | _ n ih =>
  intro items hsz hclean p x hx hvx
  cases items with
  | nil => simp [visitedItems] at hx
  | errItem err more => simp [CleanItems] at hclean
  | okItem t more =>
    obtain ⟨nm, ft, l⟩ := t
    have hlt : Items.size more < n := by
      have := FsTree.size_pos (.mk nm ft l)
      simp [Items.size] at hsz; omega
    rw [CleanItems] at hclean
    simp only [Bool.and_eq_true] at hclean
    obtain ⟨hcT, hcM⟩ := hclean
    rw [visitedItems, List.mem_append] at hx
    rw [denoOutItems, List.mem_append]
    rcases hx with hx | hx
    · left
      rcases ft with err | b
      · simp [CleanTree] at hcT
      · cases l with
        | fail err2 => simp [CleanTree, CleanListing] at hcT
        | ok chitems =>
          rw [CleanTree, CleanListing] at hcT
          simp only [Bool.and_eq_true] at hcT
          have hcC : CleanItems chitems = true := hcT.2
          have hlt2 : Items.size chitems < n := by
            simp [Items.size, FsTree.size, Listing.size] at hsz; omega
          cases b with
          | false =>
            rw [visitedTree] at hx
            simp at hx
            subst hx
            simp [denoOutTree, hvx]
          | true =>
            rw [visitedTree] at hx
            rcases hv : fVerdict filter ⟨p ++ [nm], .mk nm (.ok true) (.ok chitems)⟩
              with _ | _ | _
            · rw [if_pos (by simp [hv])] at hx
              rcases List.mem_cons.mp hx with hx | hx
              · subst hx
                rw [hv] at hvx
                exact absurd hvx (by simp)
              · simp [denoOutTree, hv]
                exact ih (Items.size chitems) hlt2 chitems le_rfl hcC (p ++ [nm]) x hx hvx
            · rw [if_neg (by simp [hv])] at hx
              simp at hx
              subst hx
              rw [hv] at hvx
              exact absurd hvx (by simp)
            · rw [if_pos (by simp [hv])] at hx
              rcases List.mem_cons.mp hx with hx | hx
              · subst hx
                simp [denoOutTree, hv]
              · simp [denoOutTree, hv]
                right
                exact ih (Items.size chitems) hlt2 chitems le_rfl hcC (p ++ [nm]) x hx hvx
    · exact Or.inr (ih (Items.size more) hlt more le_rfl hcM p x hx hvx)

/-- When a discovered directory entry is descended into (verdict not
`IgnoreDir`), everything discovered inside it is discovered in the whole
traversal. -/
theorem visited_absorb (filter : Option Filter) :
    ∀ (n : Nat) (items : Items), Items.size items ≤ n →
      ∀ (p : List String) (D : Entry) (chitems : Items),
        D ∈ visitedItems filter p items →
        D.tree.ftype = .ok true → D.tree.listing = .ok chitems →
        fVerdict filter D ≠ .IgnoreDir →
        ∀ x ∈ visitedItems filter D.path chitems, x ∈ visitedItems filter p items := by
  intro n
  induction n using Nat.strong_induction_on with
  | _ n ih =>
  intro items hsz p D chitems hD hft hlst hvD x hxin
  cases items with
  | nil => simp [visitedItems] at hD
  | errItem err more =>
    have hlt : Items.size more < n := by simp [Items.size] at hsz; omega
    rw [visitedItems] at hD ⊢
    exact ih (Items.size more) hlt more le_rfl p D chitems hD hft hlst hvD x hxin
  | okItem t more =>
    obtain ⟨nm, ft, l⟩ := t
    have hlt : Items.size more < n := by
      have := FsTree.size_pos (.mk nm ft l)
      simp [Items.size] at hsz; omega
    rw [visitedItems, List.mem_append] at hD
    rw [visitedItems, List.mem_append]
    rcases hD with hD | hD
    · left
      rcases ft with err | b
      · rw [visitedTree] at hD
        simp at hD
        subst hD
        simp [FsTree.ftype] at hft
      · cases b with
        | false =>
          rw [visitedTree] at hD
          simp at hD
          subst hD
          simp [FsTree.ftype] at hft
        | true =>
          cases l with
          | fail err2 =>
            rw [visitedTree] at hD
            simp at hD
            subst hD
            simp [FsTree.listing] at hlst
          | ok citems =>
            have hlt2 : Items.size citems < n := by
              simp [Items.size, FsTree.size, Listing.size] at hsz; omega
            rw [visitedTree] at hD ⊢
            by_cases hve : fVerdict filter
                ⟨p ++ [nm], .mk nm (.ok true) (.ok citems)⟩ = .IgnoreDir
            · rw [if_neg (by simp [hve])] at hD
              simp at hD
              subst hD
              exact absurd hve hvD
            · rw [if_pos (by simp [hve])] at hD
              rw [if_pos (by simp [hve])]
              rcases List.mem_cons.mp hD with hD | hD
              · subst hD
                simp only [FsTree.listing] at hlst
                cases hlst
                exact List.mem_cons_of_mem _ hxin
              · exact List.mem_cons_of_mem _
                  (ih (Items.size citems) hlt2 citems le_rfl (p ++ [nm]) D chitems hD
                    hft hlst hvD x hxin)
    · exact Or.inr (ih (Items.size more) hlt more le_rfl p D chitems hD hft hlst hvD x hxin)

/-- Two paths that extend the same directory path, one extending the other,
start with the same component under that directory. -/
theorem path_ext_same_head (p : List String) (a b : String) (ra rb rc : List String)
    (h : p ++ a :: ra = (p ++ b :: rb) ++ rc) : a = b := by
  rw [List.append_assoc] at h
  have h2 := congrArg (List.drop p.length) h
  rw [List.drop_left, List.drop_left] at h2
  rw [List.cons_append] at h2
  injection h2

/-- Specialisation of `visited_path_shape` to a single tree: everything
discovered while traversing `t` under `p` lives under `p ++ [t.name]`. -/
theorem visitedTree_path_shape (filter : Option Filter) (p : List String) (t : FsTree)
    (y : Entry) (hy : y ∈ visitedTree filter p t) : ∃ r, y.path = p ++ t.name :: r := by
  have hmem : y ∈ visitedItems filter p (.okItem t .nil) := by
    rw [visitedItems]
    simp [hy]
  obtain ⟨nm, r, hp, hnm⟩ := visited_path_shape filter (Items.size (.okItem t .nil))
    (.okItem t .nil) le_rfl p y hmem
  rw [itemNames] at hnm
  simp [itemNames] at hnm
  exact ⟨r, by rw [hp, hnm]⟩

/-- With distinct sibling names, once a discovered directory entry `D` is
pruned (`IgnoreDir`), no other discovered entry's path extends `D`'s path:
the pruned subtree is gone and no other branch produces such paths. -/
theorem visited_pruned_unique (filter : Option Filter) :
    ∀ (n : Nat) (items : Items), Items.size items ≤ n →
      (itemNames items).Nodup → UniqueItems items = true →
      ∀ (p : List String) (D : Entry), D ∈ visitedItems filter p items →
        fVerdict filter D = .IgnoreDir →
        ∀ x ∈ visitedItems filter p items, (∃ r, x.path = D.path ++ r) → x = D := by
  intro n
  induction n using Nat.strong_induction_on with
  | _ n ih =>
  intro items hsz hnd hu p D hD hvD x hx hext
  cases items with
  | nil => simp [visitedItems] at hD
  | errItem err more =>
    have hlt : Items.size more < n := by simp [Items.size] at hsz; omega
    rw [visitedItems] at hD hx
    rw [itemNames] at hnd
    rw [UniqueItems] at hu
    exact ih (Items.size more) hlt more le_rfl hnd hu p D hD hvD x hx hext
  | okItem t more =>
    have hlt : Items.size more < n := by
      have := FsTree.size_pos t
      simp [Items.size] at hsz; omega
    rw [itemNames] at hnd
    have hnm_notin : t.name ∉ itemNames more := (List.nodup_cons.mp hnd).1
    rw [UniqueItems] at hu
    simp only [Bool.and_eq_true] at hu
    obtain ⟨huT, huM⟩ := hu
    rw [visitedItems, List.mem_append] at hD hx
    rcases hD with hD | hD
    · rcases hx with hx | hx
      · -- both inside the same sibling subtree
        obtain ⟨nmT, ftT, lT⟩ := t
        rcases ftT with err | b
        · rw [visitedTree] at hD hx
          simp at hD hx
          rw [hD, hx]
        · cases b with
          | false =>
            rw [visitedTree] at hD hx
            simp at hD hx
            rw [hD, hx]
          | true =>
            cases lT with
            | fail err2 =>
              rw [visitedTree] at hD hx
              simp at hD hx
              rw [hD, hx]
            | ok citems =>
              have hlt2 : Items.size citems < n := by
                simp [Items.size, FsTree.size, Listing.size] at hsz; omega
              rw [UniqueTree] at huT
              simp only [Bool.and_eq_true, decide_eq_true_eq] at huT
              obtain ⟨hndC, huC⟩ := huT
              rw [visitedTree] at hD hx
              by_cases hve : fVerdict filter
                  ⟨p ++ [nmT], .mk nmT (.ok true) (.ok citems)⟩ = .IgnoreDir
              · rw [if_neg (by simp [hve])] at hD hx
                simp at hD hx
                rw [hD, hx]
              · rw [if_pos (by simp [hve])] at hD hx
                rcases List.mem_cons.mp hD with hD | hD
                · subst hD
                  exact absurd hvD hve
                · rcases List.mem_cons.mp hx with hx | hx
                  · -- x is the subtree's own entry, D strictly below it: impossible
                    obtain ⟨nm', r', hpD', _⟩ := visited_path_shape filter
                      (Items.size citems) citems le_rfl (p ++ [nmT]) D hD
                    obtain ⟨r, hr⟩ := hext
                    rw [hx] at hr
                    have hlen := congrArg List.length hr
                    rw [hpD'] at hlen
                    simp at hlen
                  · exact ih (Items.size citems) hlt2 citems le_rfl hndC huC
                      (p ++ [nmT]) D hD hvD x hx hext
      · -- D inside the sibling subtree, x among the later siblings
        obtain ⟨rD, hpD⟩ := visitedTree_path_shape filter p t D hD
        obtain ⟨nm', r', hpx, hnm'⟩ := visited_path_shape filter (Items.size more)
          more le_rfl p x hx
        obtain ⟨r, hr⟩ := hext
        rw [hpx, hpD] at hr
        have : nm' = t.name := path_ext_same_head p nm' t.name r' rD r hr
        rw [this] at hnm'
        exact absurd hnm' hnm_notin
    · rcases hx with hx | hx
      · -- x inside the sibling subtree, D among the later siblings
        obtain ⟨rx, hpx⟩ := visitedTree_path_shape filter p t x hx
        obtain ⟨nm', r', hpD, hnm'⟩ := visited_path_shape filter (Items.size more)
          more le_rfl p D hD
        obtain ⟨r, hr⟩ := hext
        rw [hpx, hpD] at hr
        have : t.name = nm' := path_ext_same_head p t.name nm' rx r' r hr
        rw [← this] at hnm'
        exact absurd hnm' hnm_notin
      · exact ih (Items.size more) hlt more le_rfl (List.nodup_cons.mp hnd).2 huM
          p D hD hvD x hx hext

/-- Two extensions of the same directory path that are equal start with the
same component. -/
theorem path_same_head (p : List String) (a b : String) (ra rb : List String)
    (h : p ++ a :: ra = p ++ b :: rb) : a = b := by
  have h2 := congrArg (List.drop p.length) h
  rw [List.drop_left, List.drop_left] at h2
  injection h2

/-- With no filter, a clean tree's emissions are exactly its discovered
entries, all as successes, in discovery order. -/
theorem denoOut_none_eq :
    ∀ (n : Nat) (items : Items), Items.size items ≤ n → CleanItems items = true →
      ∀ (p : List String),
        denoOutItems none p items = (visitedItems none p items).map Except.ok := by
  intro n
  induction n using Nat.strong_induction_on with
  | _ n ih =>
  intro items hsz hclean p
  cases items with
  | nil => simp [denoOutItems, visitedItems]
  | errItem err more => simp [CleanItems] at hclean
  | okItem t more =>
    obtain ⟨nm, ft, l⟩ := t
    have hlt : Items.size more < n := by
      have := FsTree.size_pos (.mk nm ft l)
      simp [Items.size] at hsz; omega
    rw [CleanItems] at hclean
    simp only [Bool.and_eq_true] at hclean
    obtain ⟨hcT, hcM⟩ := hclean
    rcases ft with err | b
    · simp [CleanTree] at hcT
    · cases l with
      | fail err2 => simp [CleanTree, CleanListing] at hcT
      | ok chitems =>
        rw [CleanTree, CleanListing] at hcT
        simp only [Bool.and_eq_true] at hcT
        have hlt2 : Items.size chitems < n := by
          simp [Items.size, FsTree.size, Listing.size] at hsz; omega
        have hvnone : fVerdict none ⟨p ++ [nm], .mk nm (.ok b) (.ok chitems)⟩
            = .Continue := rfl
        rw [denoOutItems, visitedItems]
        cases b with
        | false =>
          rw [denoOutTree, visitedTree]
          simp [hvnone, ih (Items.size more) hlt more le_rfl hcM p]
        | true =>
          rw [denoOutTree, visitedTree]
          simp [hvnone, ih (Items.size more) hlt more le_rfl hcM p,
            ih (Items.size chitems) hlt2 chitems le_rfl hcT.2 (p ++ [nm])]

/-- With distinct sibling names, discovered entries have pairwise distinct
paths. -/
theorem visited_paths_nodup (filter : Option Filter) :
    ∀ (n : Nat) (items : Items), Items.size items ≤ n →
      (itemNames items).Nodup → UniqueItems items = true →
      ∀ (p : List String), ((visitedItems filter p items).map Entry.path).Nodup := by
  intro n
  induction n using Nat.strong_induction_on with
  | _ n ih =>
  intro items hsz hnd hu p
  cases items with
  | nil => simp [visitedItems]
  | errItem err more =>
    have hlt : Items.size more < n := by simp [Items.size] at hsz; omega
    rw [visitedItems]
    rw [itemNames] at hnd
    rw [UniqueItems] at hu
    exact ih (Items.size more) hlt more le_rfl hnd hu p
  | okItem t more =>
    have hlt : Items.size more < n := by
      have := FsTree.size_pos t
      simp [Items.size] at hsz; omega
    rw [itemNames] at hnd
    have hnm_notin : t.name ∉ itemNames more := (List.nodup_cons.mp hnd).1
    rw [UniqueItems] at hu
    simp only [Bool.and_eq_true] at hu
    obtain ⟨huT, huM⟩ := hu
    rw [visitedItems, List.map_append]
    rw [List.nodup_append]
    refine ⟨?_, ?_, ?_⟩
    · -- the subtree's paths are distinct
      obtain ⟨nmT, ftT, lT⟩ := t
      rcases ftT with err | b
      · rw [visitedTree]; simp
      · cases b with
        | false => rw [visitedTree]; simp
        | true =>
          cases lT with
          | fail err2 => rw [visitedTree]; simp
          | ok citems =>
            have hlt2 : Items.size citems < n := by
              simp [Items.size, FsTree.size, Listing.size] at hsz; omega
            rw [UniqueTree] at huT
            simp only [Bool.and_eq_true, decide_eq_true_eq] at huT
            rw [visitedTree]
            by_cases hve : fVerdict filter
                ⟨p ++ [nmT], .mk nmT (.ok true) (.ok citems)⟩ = .IgnoreDir
            · rw [if_neg (by simp [hve])]
              simp
            · rw [if_pos (by simp [hve])]
              rw [List.map_cons, List.nodup_cons]
              constructor
              · intro hmem
                rw [List.mem_map] at hmem
                obtain ⟨y, hy, hyp⟩ := hmem
                obtain ⟨nm', r', hp', _⟩ := visited_path_shape filter (Items.size citems)
                  citems le_rfl (p ++ [nmT]) y hy
                have hlen := congrArg List.length hyp
                rw [hp'] at hlen
                simp at hlen
              · exact ih (Items.size citems) hlt2 citems le_rfl huT.1 huT.2 (p ++ [nmT])
    · exact ih (Items.size more) hlt more le_rfl (List.nodup_cons.mp hnd).2 huM p
    · -- paths under this sibling are disjoint from later siblings' paths
      intro a ha hb
      rw [List.mem_map] at ha hb
      obtain ⟨y, hy, hyp⟩ := ha
      obtain ⟨z, hz, hzp⟩ := hb
      obtain ⟨ry, hpy⟩ := visitedTree_path_shape filter p t y hy
      obtain ⟨nm', r', hpz, hnm'⟩ := visited_path_shape filter (Items.size more)
        more le_rfl p z hz
      have hab : y.path = z.path := hyp.trans hzp.symm
      rw [hpy, hpz] at hab
      have := path_same_head p t.name nm' ry r' hab
      rw [← this] at hnm'
      exact absurd hnm' hnm_notin

/-- For a clean tree, the filter is invoked exactly on the discovered
entries, in discovery order. -/
theorem denoCalls_eq_visited (f : Filter) :
    ∀ (n : Nat) (items : Items), Items.size items ≤ n → CleanItems items = true →
      ∀ (p : List String),
        denoCallsItems (some f) p items = visitedItems (some f) p items := by
  intro n
  induction n using Nat.strong_induction_on with
  | _ n ih =>
  intro items hsz hclean p
  cases items with
  | nil => simp [denoCallsItems, visitedItems]
  | errItem err more => simp [CleanItems] at hclean
  | okItem t more =>
    obtain ⟨nm, ft, l⟩ := t
    have hlt : Items.size more < n := by
      have := FsTree.size_pos (.mk nm ft l)
      simp [Items.size] at hsz; omega
    rw [CleanItems] at hclean
    simp only [Bool.and_eq_true] at hclean
    obtain ⟨hcT, hcM⟩ := hclean
    rcases ft with err | b
    · simp [CleanTree] at hcT
    · cases l with
      | fail err2 => simp [CleanTree, CleanListing] at hcT
      | ok chitems =>
        rw [CleanTree, CleanListing] at hcT
        simp only [Bool.and_eq_true] at hcT
        have hlt2 : Items.size chitems < n := by
          simp [Items.size, FsTree.size, Listing.size] at hsz; omega
        rw [denoCallsItems, visitedItems]
        cases b with
        | false =>
          rw [denoCallsTree, visitedTree]
          simp [fCalls, ih (Items.size more) hlt more le_rfl hcM p]
        | true =>
          rw [denoCallsTree, visitedTree]
          rcases hv : fVerdict (some f) ⟨p ++ [nm], .mk nm (.ok true) (.ok chitems)⟩
            with _ | _ | _ <;>
            simp [hv, fCalls, ih (Items.size more) hlt more le_rfl hcM p,
              ih (Items.size chitems) hlt2 chitems le_rfl hcT.2 (p ++ [nm])]

/-- The emitted items depend on the filter only through the verdict it
assigns to each entry. -/
theorem denoOut_congr :
    ∀ (n : Nat) (items : Items), Items.size items ≤ n →
      ∀ (f g : Option Filter), (∀ e, fVerdict f e = fVerdict g e) →
        ∀ (p : List String), denoOutItems f p items = denoOutItems g p items := by
  intro n
  induction n using Nat.strong_induction_on with
  | _ n ih =>
  intro items hsz f g hfg p
  cases items with
  | nil => simp [denoOutItems]
  | errItem err more =>
    have hlt : Items.size more < n := by simp [Items.size] at hsz; omega
    rw [denoOutItems, denoOutItems, ih (Items.size more) hlt more le_rfl f g hfg p]
  | okItem t more =>
    obtain ⟨nm, ft, l⟩ := t
    have hlt : Items.size more < n := by
      have := FsTree.size_pos (.mk nm ft l)
      simp [Items.size] at hsz; omega
    have IHm := ih (Items.size more) hlt more le_rfl f g hfg p
    rw [denoOutItems, denoOutItems, IHm]
    rcases ft with err | b
    · simp [denoOutTree]
    · cases l with
      | fail err2 =>
        cases b with
        | false =>
          rcases hv : fVerdict f ⟨p ++ [nm], .mk nm (.ok false) (.fail err2)⟩
            with _ | _ | _ <;>
            simp [denoOutTree, hv, (hfg _).symm.trans hv]
        | true => simp [denoOutTree]
      | ok chitems =>
        have hlt2 : Items.size chitems < n := by
          simp [Items.size, FsTree.size, Listing.size] at hsz; omega
        have IHc := ih (Items.size chitems) hlt2 chitems le_rfl f g hfg (p ++ [nm])
        cases b with
        | false =>
          rcases hv : fVerdict f ⟨p ++ [nm], .mk nm (.ok false) (.ok chitems)⟩
            with _ | _ | _ <;>
            simp [denoOutTree, hv, (hfg _).symm.trans hv]
        | true =>
          rcases hv : fVerdict f ⟨p ++ [nm], .mk nm (.ok true) (.ok chitems)⟩
            with _ | _ | _ <;>
            simp [denoOutTree, hv, (hfg _).symm.trans hv, IHc]

theorem runWalk_nil (filter : Option Filter) : runWalk filter [] = ⟨[], [], []⟩ := by
  rw [runWalk_none filter [] (by rw [walk_nil]), walk_nil]

/-- A successful traversal's item sequence is the denotational one. -/
theorem walk_dir_out_ok (root : List String) (items : Items) (filter : Option Filter) :
    (walk_dir root (.ok items) filter).out = denoOutItems filter root items := by
  rw [walk_dir_ok]
  have h := (runWalk_deno filter (Items.size items) items le_rfl root []).1
  rw [runWalk_nil] at h
  simpa using h

/-- A successful traversal's filter invocations are the denotational ones. -/
theorem walk_dir_calls_ok (root : List String) (items : Items) (filter : Option Filter) :
    (walk_dir root (.ok items) filter).calls = denoCallsItems filter root items := by
  rw [walk_dir_ok]
  have h := (runWalk_deno filter (Items.size items) items le_rfl root []).2
  rw [runWalk_nil] at h
  simpa using h

/-- C5: if opening the root directory listing fails, the produced sequence
is exactly the one error item; the unfold moves straight to `Done`, and
every pull in `Done` returns no item, performs no filesystem operation and
invokes no filter. -/
theorem c5_root_open_failure (root : List String) (filter : Option Filter) (err : Nat) :
    walk_dir root (.fail err) filter = ⟨[], [.readDir root], [Except.error err]⟩ ∧
    (stepState (.fail err) filter (.Start root)).out = some (.error err, .Done) ∧
    (∀ (env : Listing) (f2 : Option Filter), stepState env f2 .Done = ⟨[], [], none⟩) := by
  refine ⟨walk_dir_fail root err filter, rfl, ?_⟩
  intro env f2
  rfl

/-- C6: when reading the next raw member of the top-of-stack listing
errors, the engine yields that error as an item and the stack keeps the
same handles at the same depth — nothing is pushed, popped or replaced;
the top handle itself has merely been advanced past the failing record by
its own `next()` call, so the next pull reads that same handle again. -/
theorem c6_read_error_keeps_stack (filter : Option Filter) (p : List String)
    (err : Nat) (more : Items) (rest : List Handle) :
    walk filter (⟨p, .errItem err more⟩ :: rest)
      = ⟨[], [], some (.error err, ⟨p, more⟩ :: rest)⟩ ∧
    (⟨p, more⟩ :: rest : List Handle).length
      = (⟨p, .errItem err more⟩ :: rest : List Handle).length ∧
    (⟨p, more⟩ :: rest : List Handle).tail
      = (⟨p, .errItem err more⟩ :: rest : List Handle).tail ∧
    (⟨p, more⟩ : Handle).parent = (⟨p, .errItem err more⟩ : Handle).parent := by
  exact ⟨walk_err filter ⟨p, .errItem err more⟩ rest err more rfl, rfl, rfl, rfl⟩

/-- C7: a traversal with no filter produces exactly the same sequence of
results as one whose filter answers `Continue` for every entry. -/
theorem c7_no_filter_continue_equiv (root : List String) (env : Listing) :
    (walk_dir root env none).out
      = (walk_dir root env (some fun _ => Filtering.Continue)).out := by
  cases env with
  | fail e => rw [walk_dir_fail, walk_dir_fail]
  | ok items =>
    rw [walk_dir_out_ok, walk_dir_out_ok]
    exact denoOut_congr (Items.size items) items le_rfl none
      (some fun _ => Filtering.Continue) (fun e => rfl) root

/-- C8: for an entry that is not a directory, the verdicts `Ignore` and
`IgnoreDir` have the same effect — the entry is not yielded, the filter was
invoked once, only classification touched the filesystem, the stack is
unchanged, and the engine keeps walking. -/
theorem c8_nondir_ignore_equals_ignoredir (f : Filter) (e : Entry) (dirs : List Handle)
    (hft : e.tree.ftype = .ok false)
    (hv : f e = .Ignore ∨ f e = .IgnoreDir) :
    walk_entry (some f) e dirs = ⟨[e], [.fileType e.path], .keepWalking dirs⟩ := by
  have hnc : fVerdict (some f) e ≠ .Continue := by
    rcases hv with h | h <;> simp [fVerdict, h]
  rw [we_fileSkip (some f) e dirs hft hnc]
  rfl

theorem c8_witness :
    walk_entry (some fun _ => Filtering.Ignore)
        ⟨["r", "a"], .mk "a" (.ok false) (.ok .nil)⟩ []
      = ⟨[⟨["r", "a"], .mk "a" (.ok false) (.ok .nil)⟩], [.fileType ["r", "a"]],
         .keepWalking []⟩ ∧
    walk_entry (some fun _ => Filtering.IgnoreDir)
        ⟨["r", "a"], .mk "a" (.ok false) (.ok .nil)⟩ []
      = ⟨[⟨["r", "a"], .mk "a" (.ok false) (.ok .nil)⟩], [.fileType ["r", "a"]],
         .keepWalking []⟩ :=
  ⟨c8_nondir_ignore_equals_ignoredir (fun _ => Filtering.Ignore)
      ⟨["r", "a"], .mk "a" (.ok false) (.ok .nil)⟩ [] rfl (Or.inl rfl),
   c8_nondir_ignore_equals_ignoredir (fun _ => Filtering.IgnoreDir)
      ⟨["r", "a"], .mk "a" (.ok false) (.ok .nil)⟩ [] rfl (Or.inr rfl)⟩

/-- C9: constructing a traversal performs no filesystem operation and no
filter invocation — the stored state is just `Start root` — while the very
first operation of the first pull is opening the root's listing. -/
theorem c9_lazy_construction (root : List String) :
    (WalkDir.new root).ops = [] ∧ (WalkDir.new root).calls = [] ∧
    (WalkDir.new root).out.state = .Start root ∧
    (∀ (env : Listing) (filter : Option Filter),
      ((stepState env filter ((WalkDir.new root).out.state)).ops).head?
        = some (.readDir root)) := by
  refine ⟨rfl, rfl, rfl, ?_⟩
  intro env filter
  cases env <;> simp [stepState, WalkDir.new]

/-- C10: if opening the listing of a directory entry fails, the entry is
not yielded as a success (whatever the verdict, `Continue` included): the
single item produced for it is the open error, and the continuation stack
is exactly the incoming one — traversal resumes with the remaining
siblings. -/
theorem c10_open_failure_no_success (filter : Option Filter) (e : Entry)
    (dirs : List Handle) (err : Nat)
    (hft : e.tree.ftype = .ok true) (hl : e.tree.listing = .fail err) :
    (walk_entry filter e dirs).out = .yield (.error err) dirs ∧
    (∀ (x : Entry) (d : List Handle),
      (walk_entry filter e dirs).out ≠ .yield (.ok x) d) ∧
    (walk_entry filter e dirs).out.stack = dirs := by
  rw [we_dirFail filter e dirs err hft hl]
  refine ⟨rfl, ?_, rfl⟩
  intro x d h
  simp at h

theorem c10_witness :
    (walk_entry (some fun _ => Filtering.Continue)
        ⟨["r", "d"], .mk "d" (.ok true) (.fail 7)⟩ []).out
      = .yield (.error 7) [] ∧
    (∀ (x : Entry) (d : List Handle),
      (walk_entry (some fun _ => Filtering.Continue)
          ⟨["r", "d"], .mk "d" (.ok true) (.fail 7)⟩ []).out ≠ .yield (.ok x) d) ∧
    ((walk_entry (some fun _ => Filtering.Continue)
        ⟨["r", "d"], .mk "d" (.ok true) (.fail 7)⟩ []).out).stack = [] :=
  c10_open_failure_no_success (some fun _ => Filtering.Continue)
    ⟨["r", "d"], .mk "d" (.ok true) (.fail 7)⟩ [] 7 rfl rfl

/-- Concrete tree `r/d/m/x` used against claim C1 as frozen. -/
def fileX : FsTree := .mk "x" (.ok false) (.ok .nil)

def dirM : FsTree := .mk "m" (.ok true) (.ok (.okItem fileX .nil))

def dirD : FsTree := .mk "d" (.ok true) (.ok (.okItem dirM .nil))

/-- Filter answering `Ignore` for `r/d`, `IgnoreDir` for `r/d/m`,
`Continue` elsewhere. -/
def c1Filter : Filter := fun e =>
  if e.path = ["r", "d"] then Filtering.Ignore
  else if e.path = ["r", "d", "m"] then Filtering.IgnoreDir
  else Filtering.Continue

/-- C1 counterexample: in the clean, uniquely-named tree `r/d/m/x`, the
filter answers `Ignore` for the directory `d`; `x` is a descendant of `d`
with verdict `Continue`; yet the traversal yields nothing at all — because
the intermediate directory `m` is pruned by `IgnoreDir`.  The frozen
claim demands that `x` be yielded. -/
theorem c1_counterexample :
    CleanItems (.okItem dirD .nil) = true ∧
    (itemNames (.okItem dirD .nil)).Nodup ∧
    UniqueItems (.okItem dirD .nil) = true ∧
    c1Filter ⟨["r", "d"], dirD⟩ = .Ignore ∧
    (⟨["r", "d", "m", "x"], fileX⟩ : Entry)
      ∈ allEntriesItems ["r", "d"] (.okItem dirM .nil) ∧
    c1Filter ⟨["r", "d", "m", "x"], fileX⟩ = .Continue ∧
    (walk_dir ["r"] (.ok (.okItem dirD .nil)) (some c1Filter)).out = [] := by
  refine ⟨by decide, by decide, by decide, by decide, by decide, by decide, ?_⟩
  rw [walk_dir_out_ok]
  decide

/-- C1 (amended): for a clean tree with distinct sibling names and a
discovered entry `D`: if the filter answers `Ignore` for the directory
`D`, then `D` is not yielded while every entry discovered inside `D`
(that is, every descendant not cut off by a pruned intermediate
directory) whose verdict is `Continue` is yielded; and if the filter
answers `IgnoreDir` for `D`, no yielded entry's path equals or extends
`D`'s path.  The frozen claim's stronger first half — every `Continue`
descendant, even below pruned intermediate directories — is refuted by
`c1_counterexample`. -/
theorem c1_filtering_invariant (f : Filter) (root : List String) (items : Items)
    (D : Entry)
    (hclean : CleanItems items = true)
    (hnd : (itemNames items).Nodup)
    (hu : UniqueItems items = true)
    (hD : D ∈ visitedItems (some f) root items) :
    (f D = .Ignore →
      Except.ok D ∉ (walk_dir root (.ok items) (some f)).out ∧
      (∀ chitems, D.tree.ftype = .ok true → D.tree.listing = .ok chitems →
        ∀ E ∈ visitedItems (some f) D.path chitems, f E = .Continue →
          Except.ok E ∈ (walk_dir root (.ok items) (some f)).out)) ∧
    (f D = .IgnoreDir →
      ∀ (x : Entry) (r : List String),
        Except.ok x ∈ (walk_dir root (.ok items) (some f)).out →
        x.path ≠ D.path ++ r) := by
  rw [walk_dir_out_ok]
  constructor
  · intro hIgn
    constructor
    · intro hmem
      have hv := denoOut_ok_verdict (some f) (Items.size items) items le_rfl root D hmem
      rw [show fVerdict (some f) D = f D from rfl, hIgn] at hv
      exact absurd hv (by simp)
    · intro chitems hft hlst E hE hvE
      have hvD : fVerdict (some f) D ≠ .IgnoreDir := by
        simp [fVerdict, hIgn]
      have hEall := visited_absorb (some f) (Items.size items) items le_rfl root D
        chitems hD hft hlst hvD E hE
      exact visited_continue_yielded (some f) (Items.size items) items le_rfl hclean
        root E hEall (by simpa [fVerdict] using hvE)
  · intro hIgnD x r hmem heq
    have hxvis := denoOut_sub_visited (some f) (Items.size items) items le_rfl root x hmem
    have hxD := visited_pruned_unique (some f) (Items.size items) items le_rfl hnd hu
      root D hD (by simpa [fVerdict] using hIgnD) x hxvis ⟨r, heq⟩
    have hv := denoOut_ok_verdict (some f) (Items.size items) items le_rfl root x hmem
    rw [hxD, show fVerdict (some f) D = f D from rfl, hIgnD] at hv
    exact absurd hv (by simp)

/-- Tree `r/a/y` and a filter ignoring (not pruning) `a`, used to witness
the amended C1. -/
def fileY : FsTree := .mk "y" (.ok false) (.ok .nil)

def dirA : FsTree := .mk "a" (.ok true) (.ok (.okItem fileY .nil))

def c1wFilter : Filter := fun e =>
  if e.path = ["r", "a"] then Filtering.Ignore else Filtering.Continue

theorem c1_witness :
    Except.ok (⟨["r", "a"], dirA⟩ : Entry)
      ∉ (walk_dir ["r"] (.ok (.okItem dirA .nil)) (some c1wFilter)).out ∧
    Except.ok (⟨["r", "a", "y"], fileY⟩ : Entry)
      ∈ (walk_dir ["r"] (.ok (.okItem dirA .nil)) (some c1wFilter)).out := by
  have h := c1_filtering_invariant c1wFilter ["r"] (.okItem dirA .nil)
    ⟨["r", "a"], dirA⟩ (by decide) (by decide) (by decide) (by decide)
  have h1 := h.1 (by decide)
  exact ⟨h1.1, h1.2 (.okItem fileY .nil) rfl rfl ⟨["r", "a", "y"], fileY⟩
    (by decide) (by decide)⟩

/-- C2: with no filter, a traversal of a clean tree with distinct sibling
names yields exactly the entries strictly beneath the root, in discovery
order, each exactly once, and never the root itself. -/
theorem c2_unfiltered_complete (root : List String) (items : Items)
    (hclean : CleanItems items = true)
    (hnd : (itemNames items).Nodup)
    (hu : UniqueItems items = true) :
    (walk_dir root (.ok items) none).out
      = (allEntriesItems root items).map Except.ok ∧
    (∀ e ∈ allEntriesItems root items,
      ((walk_dir root (.ok items) none).out).count (Except.ok e) = 1) ∧
    (∀ x : Entry, Except.ok x ∈ (walk_dir root (.ok items) none).out →
      x.path ≠ root) := by
  have hout : (walk_dir root (.ok items) none).out
      = (allEntriesItems root items).map Except.ok := by
    rw [walk_dir_out_ok]
    exact denoOut_none_eq (Items.size items) items le_rfl hclean root
  refine ⟨hout, ?_, ?_⟩
  · intro e he
    rw [hout]
    have hnodup_paths := visited_paths_nodup none (Items.size items) items le_rfl
      hnd hu root
    have hnodup : (allEntriesItems root items).Nodup := hnodup_paths.of_map
    rw [List.count_map_of_injective _ Except.ok (fun a b h => by injection h) e]
    exact List.count_eq_one_of_mem hnodup he
  · intro x hx
    rw [hout, List.mem_map] at hx
    obtain ⟨y, hy, hyx⟩ := hx
    have hyx' : y = x := by injection hyx
    subst hyx'
    obtain ⟨nm, r, hp, _⟩ := visited_path_shape none (Items.size items) items
      le_rfl root y hy
    rw [hp]
    intro hcontra
    have := congrArg List.length hcontra
    simp at this

/-- Tree `r/f`, `r/a/y` used to witness C2. -/
def c2File : FsTree := .mk "f" (.ok false) (.ok .nil)

def c2Items : Items := .okItem c2File (.okItem dirA .nil)

theorem c2_witness :
    (walk_dir ["r"] (.ok c2Items) none).out
      = (allEntriesItems ["r"] c2Items).map Except.ok :=
  (c2_unfiltered_complete ["r"] c2Items (by decide) (by decide) (by decide)).1

/-- Directory `r/d` whose own listing fails to open with error 7. -/
def c3Dir : FsTree := .mk "d" (.ok true) (.fail 7)

/-- C3 counterexample: the verdict for the directory `d` is `IgnoreDir`,
yet `walk_entry` still performs the `read_dir` of `d` — the source opens
the listing before consulting the verdict, only the push is conditional —
and the open failure is yielded as the traversal's sole item.  The frozen
claim says that under `IgnoreDir` no listing of that directory is opened
and no such error can be yielded. -/
theorem c3_counterexample :
    ((fun (_ : Entry) => Filtering.IgnoreDir) ⟨["r", "d"], c3Dir⟩ = .IgnoreDir) ∧
    walk_entry (some fun _ => Filtering.IgnoreDir) ⟨["r", "d"], c3Dir⟩ []
      = ⟨[⟨["r", "d"], c3Dir⟩], [.fileType ["r", "d"], .readDir ["r", "d"]],
         .yield (.error 7) []⟩ ∧
    (walk_dir ["r"] (.ok (.okItem c3Dir .nil)) (some fun _ => Filtering.IgnoreDir)).out
      = [Except.error 7] := by
  refine ⟨rfl, ?_, ?_⟩
  · rw [we_dirFail (some fun _ => Filtering.IgnoreDir) ⟨["r", "d"], c3Dir⟩ [] 7 rfl rfl]
    rfl
  · rw [walk_dir_out_ok]
    decide

/-- C3 (amended): for every entry classified as a directory, `walk_entry`
opens the directory's listing regardless of the verdict; an open failure
is yielded (with the stack unchanged) even under `IgnoreDir`; on success
the new handle is pushed exactly when the verdict is not `IgnoreDir`. -/
theorem c3_directory_open (filter : Option Filter) (e : Entry) (dirs : List Handle)
    (hft : e.tree.ftype = .ok true) :
    FsOp.readDir e.path ∈ (walk_entry filter e dirs).ops ∧
    (∀ err, e.tree.listing = .fail err →
      (walk_entry filter e dirs).out = .yield (.error err) dirs) ∧
    (∀ items, e.tree.listing = .ok items →
      (walk_entry filter e dirs).out.stack
        = if fVerdict filter e ≠ .IgnoreDir then ⟨e.path, items⟩ :: dirs else dirs) := by
  refine ⟨?_, ?_, ?_⟩
  · cases hl : e.tree.listing with
    | fail err =>
      rw [we_dirFail filter e dirs err hft hl]
      simp
    | ok items =>
      rcases hv : fVerdict filter e with _ | _ | _
      · rw [we_dirIgnore filter e dirs items hft hl hv]; simp
      · rw [we_dirIgnoreDir filter e dirs items hft hl hv]; simp
      · rw [we_dirContinue filter e dirs items hft hl hv]; simp
  · intro err hl
    rw [we_dirFail filter e dirs err hft hl]
  · intro items hl
    rcases hv : fVerdict filter e with _ | _ | _
    · rw [we_dirIgnore filter e dirs items hft hl hv]
      simp [StepOut.stack, hv]
    · rw [we_dirIgnoreDir filter e dirs items hft hl hv]
      simp [StepOut.stack, hv]
    · rw [we_dirContinue filter e dirs items hft hl hv]
      simp [StepOut.stack, hv]

theorem c3_witness :
    FsOp.readDir ["r", "d"] ∈
      (walk_entry (some fun _ => Filtering.IgnoreDir) ⟨["r", "d"], c3Dir⟩ []).ops := by
  have h := c3_directory_open (some fun _ => Filtering.IgnoreDir)
    ⟨["r", "d"], c3Dir⟩ [] rfl
  exact h.1

/-- Entry `r/x` whose `file_type()` fails with error 3. -/
def c4Bad : FsTree := .mk "x" (.error 3) (.ok .nil)

/-- C4 counterexample: one entry is discovered — its classification
failure surfaces as the sole item of the sequence, so its processing
failed — yet the filter is never invoked: the source only consults the
filter after `file_type()` succeeds.  The frozen claim requires one
invocation for every discovered entry, including those whose processing
fails. -/
theorem c4_counterexample :
    (walk_dir ["r"] (.ok (.okItem c4Bad .nil)) (some fun _ => Filtering.Continue)).calls
      = [] ∧
    (walk_dir ["r"] (.ok (.okItem c4Bad .nil)) (some fun _ => Filtering.Continue)).out
      = [Except.error 3] := by
  constructor
  · rw [walk_dir_calls_ok]
    decide
  · rw [walk_dir_out_ok]
    decide

/-- C4 (amended): the filter is invoked exactly on the discovered entries
whose classification succeeds, in discovery order — in a clean tree that
is every discovered entry, and with distinct sibling names each exactly
once. -/
theorem c4_filter_invocations (f : Filter) (root : List String) (items : Items) :
    (walk_dir root (.ok items) (some f)).calls = denoCallsItems (some f) root items ∧
    (CleanItems items = true →
      (walk_dir root (.ok items) (some f)).calls
        = visitedItems (some f) root items) ∧
    (CleanItems items = true → (itemNames items).Nodup → UniqueItems items = true →
      (((walk_dir root (.ok items) (some f)).calls).map Entry.path).Nodup) := by
  refine ⟨walk_dir_calls_ok root items (some f), ?_, ?_⟩
  · intro hclean
    rw [walk_dir_calls_ok]
    exact denoCalls_eq_visited f (Items.size items) items le_rfl hclean root
  · intro hclean hnd hu
    rw [walk_dir_calls_ok,
      denoCalls_eq_visited f (Items.size items) items le_rfl hclean root]
    exact visited_paths_nodup (some f) (Items.size items) items le_rfl hnd hu root

def c4wFile : FsTree := .mk "y" (.ok false) (.ok .nil)

theorem c4_witness :
    (walk_dir ["r"] (.ok (.okItem c4wFile .nil)) (some fun _ => Filtering.Continue)).calls
      = visitedItems (some fun _ => Filtering.Continue) ["r"] (.okItem c4wFile .nil) :=
  (c4_filter_invocations (fun _ => Filtering.Continue) ["r"]
    (.okItem c4wFile .nil)).2.1 (by decide)

end AsyncWalkdir
